import Mathlib

/-!
# Formal model of `llm/datasets/sharded.py`

A shallow embedding of `DistributedShardedDataset` and
`ResumableSequentialSampler`.  Shard registries are association lists
`List (String × List α)` mapping shard keys to the shard's content (the
content a `dataset_type(*args, **kwargs)` call would construct; content
length plays the role of `len(shard)`).  Python exceptions are modelled by
an error type distinguishing `ValueError` (configuration errors),
`IndexError` (out-of-range access) and `AssertionError`
(internal-consistency violations); message strings are elided.

Python integers are modelled by `Int` at the public interfaces
(`rank`, `world_size`, `rank_index`) and by `Nat` for the derived
nonnegative quantities (lengths, range bounds).  Python `//` and `%` on
nonnegative operands agree with `Nat` division and modulus.
-/

inductive PyError where
  | valueError
  | indexError
  | assertionError
deriving DecidableEq

instance {ε α : Type} [DecidableEq ε] [DecidableEq α] : DecidableEq (Except ε α) :=
  fun x y =>
  match x, y with
  | Except.ok a, Except.ok b =>
    if h : a = b then isTrue (by rw [h]) else isFalse (by simp [h])
  | Except.error a, Except.error b =>
    if h : a = b then isTrue (by rw [h]) else isFalse (by simp [h])
  | Except.ok _, Except.error _ => isFalse (by simp)
  | Except.error _, Except.ok _ => isFalse (by simp)

/-- The per-shard `(start_index, end_index)` table built by the loop in
`DistributedShardedDataset.__init__`: walking the ordered shards, the k-th
range starts where the (k-1)-th ended (`index` starts at `base`). -/
def rawIndices : List (String × Nat) → Nat → List (String × Nat × Nat)
  | [], _ => []
  | (k, n) :: rest, index => (k, index, index + n) :: rawIndices rest (index + n)

/-- The truncation step of `__init__`: replace the last shard's range
`(start, end)` by `(start, end - end % world_size)`.  In the source this is
a keyed update `shard_indices[last_shard_key] = ...`; since dict keys are
unique it updates exactly the last entry of the ordered table. -/
def truncateLast (worldSize : Nat) : List (String × Nat × Nat) → List (String × Nat × Nat)
  | [] => []
  | [(k, s, e)] => [(k, s, e - e % worldSize)]
  | x :: y :: rest => x :: truncateLast worldSize (y :: rest)

/-- `self.total_samples = shard_indices[last_shard_key][1]`: the end of the
last range (0 for an empty table, which cannot occur after validation). -/
def lastEnd (l : List (String × Nat × Nat)) : Nat :=
  ((l.getLast?).map fun p => p.2.2).getD 0

/-- Lexicographic comparison of character lists by code point, the order
Python's `sorted` uses on `str`. -/
def charsLe : List Char → List Char → Bool
  | [], _ => true
  | _ :: _, [] => false
  | a :: as, b :: bs =>
    if a.toNat < b.toNat then true
    else if b.toNat < a.toNat then false
    else charsLe as bs

/-- `a <= b` for shard keys. -/
def keyLe (a b : String) : Bool := charsLe a.data b.data

/-- `shard_keys = sorted(shard_params.keys())` followed by pairing each key
with the content `load_shard` would construct for it (the `shuffle=False`
path; shuffling permutes the keys instead of sorting them). -/
def sortedShards (sp : List (String × List α)) : List (String × List α) :=
  (List.insertionSort (fun a b => keyLe a b = true) (sp.map Prod.fst)).map
    fun k => (k, ((sp.lookup k).getD []))

/-- The `(shard_key, len(shard))` list obtained by instantiating each shard
transiently during the `__init__` scan. -/
def lensOf (shards : List (String × List α)) : List (String × Nat) :=
  shards.map fun p => (p.1, p.2.length)

/-- Sum of the shard lengths (the raw, pre-truncation sample count). -/
def sumLens (lens : List (String × Nat)) : Nat :=
  (lens.map Prod.snd).sum

/-- The scan of `rank_index_to_shard_index`: first range (in shard-key
order) with `start <= global_index < end`. -/
def findEntry (g : Int) : List (String × Nat × Nat) → Option (String × Nat × Nat)
  | [] => none
  | (k, s, e) :: rest =>
    if (s : Int) ≤ g ∧ g < (e : Int) then some (k, s, e) else findEntry g rest

/-- State of a `DistributedShardedDataset` after `__init__`:
the ordered shards, the distributed configuration, the computed range
table and total, and the single-slot shard cache
(`_current_shard_key`, `_current_shard`). -/
structure DistributedShardedDataset (α : Type) where
  shards : List (String × List α)
  rank : Nat
  worldSize : Nat
  shardIndices : List (String × Nat × Nat)
  totalSamples : Nat
  currentShardKey : Option String
  currentShard : Option (List α)
deriving DecidableEq

namespace DistributedShardedDataset

/-- `DistributedShardedDataset.__init__` (with `shuffle=False`): validate
`0 <= rank < world_size` and a non-empty registry (both `ValueError`),
sort the shard keys, build the range table, truncate the last range, read
off `total_samples`, and check the
`assert len(self) * self.world_size == self.total_samples`
(an `AssertionError` if it ever failed).  The other `assert`, comparing
the sizes of the three key-indexed tables, is trivially true in this
representation and is omitted. -/
def init (sp : List (String × List α)) (rank worldSize : Int) :
    Except PyError (DistributedShardedDataset α) :=
  if ¬ (0 ≤ rank ∧ rank < worldSize) then Except.error PyError.valueError
  else if sp.length = 0 then Except.error PyError.valueError
  else
    let shards := sortedShards sp
    let indices := truncateLast worldSize.toNat (rawIndices (lensOf shards) 0)
    let total := lastEnd indices
    if total / worldSize.toNat * worldSize.toNat ≠ total then
      Except.error PyError.assertionError
    else
      Except.ok
        { shards := shards
          rank := rank.toNat
          worldSize := worldSize.toNat
          shardIndices := indices
          totalSamples := total
          currentShardKey := none
          currentShard := none }

/-- `__len__`: `total_samples // world_size`. -/
def len (d : DistributedShardedDataset α) : Nat :=
  d.totalSamples / d.worldSize

/-- `rank_index_to_global_index`: `len(self) * self.rank + rank_index`. -/
def rank_index_to_global_index (d : DistributedShardedDataset α)
    (rankIndex : Int) : Int :=
  ((d.len * d.rank : Nat) : Int) + rankIndex

/-- `rank_index_to_shard_index`: scan the ranges for the one containing the
global index; return `(shard_key, global_index - start)`, or raise
`AssertionError` when no range contains it. -/
def rank_index_to_shard_index (d : DistributedShardedDataset α)
    (rankIndex : Int) : Except PyError (String × Int) :=
  let g := d.rank_index_to_global_index rankIndex
  match findEntry g d.shardIndices with
  | some (k, s, _) => Except.ok (k, g - (s : Int))
  | none => Except.error PyError.assertionError

/-- `load_shard`: construct the shard content for a key (registry lookup). -/
def load_shard (d : DistributedShardedDataset α) (k : String) : List α :=
  ((d.shards.lookup k).getD [])

/-- The cache update of `__getitem__`: if the cached key differs from the
requested one (including the initial `None` state), load the shard and
overwrite the cache cell; otherwise keep the state unchanged. -/
def setShard (d : DistributedShardedDataset α) (k : String) :
    DistributedShardedDataset α :=
  if d.currentShardKey = some k then d
  else { d with currentShardKey := some k, currentShard := some (d.load_shard k) }

/-- `__getitem__`: reject `rank_index >= len(self)` with `IndexError`,
translate to a shard and offset, refresh the cache cell if needed
(`assert self._current_shard is not None` becomes an `AssertionError`
branch), and index the resident shard content.  Shard-content indexing is
modelled as bounds-checked random access by a nonnegative offset, the only
contract the core requires of shard objects.  Returns the sample and the
post-call state. -/
def getItem (d : DistributedShardedDataset α) (rankIndex : Int) :
    Except PyError (α × DistributedShardedDataset α) :=
  if (d.len : Int) ≤ rankIndex then Except.error PyError.indexError
  else
    match d.rank_index_to_shard_index rankIndex with
    | Except.error e => Except.error e
    | Except.ok (shardKey, shardIndex) =>
      let d' := d.setShard shardKey
      match d'.currentShard with
      | none => Except.error PyError.assertionError
      | some content =>
        match (if 0 ≤ shardIndex then content.get? shardIndex.toNat else none) with
        | some sample => Except.ok (sample, d')
        | none => Except.error PyError.indexError

/-- Reference reading of "the sample at global index `g`": the content of
the range containing `g`, at offset `g - start`. -/
def sampleAtGlobal (d : DistributedShardedDataset α) (g : Int) : Option α :=
  match findEntry g d.shardIndices with
  | some (k, s, _) => (d.load_shard k).get? (g - (s : Int)).toNat
  | none => none

/-- Observer for a sequence of `__getitem__` calls on one view: for each
index, records the resolved shard key and whether that call constructed
the shard (a cache miss, i.e. the cached key differed from the resolved
one), threading the post-call state. -/
def passLog (d : DistributedShardedDataset α) :
    List Int → Except PyError (List (String × Bool))
  | [] => Except.ok []
  | i :: is =>
    match d.rank_index_to_shard_index i with
    | Except.error e => Except.error e
    | Except.ok (k, _) =>
      match d.getItem i with
      | Except.error e => Except.error e
      | Except.ok (_, d') =>
        match passLog d' is with
        | Except.error e => Except.error e
        | Except.ok log =>
          Except.ok ((k, decide (¬ d.currentShardKey = some k)) :: log)

/-- The facts about a constructed view that index translation and item
access rely on: separated ranges, distinct shard keys, each range backed by
a long-enough shard, full coverage of `[0, total_samples)`, a consistent
cache cell, and a valid distributed configuration. -/
structure GoodView {α : Type} (d : DistributedShardedDataset α) : Prop where
  sep : List.Pairwise (fun p q => p.2.2 ≤ q.2.1) d.shardIndices
  keysNodup : (d.shardIndices.map Prod.fst).Nodup
  link : ∀ k s e, (k, s, e) ∈ d.shardIndices →
    ∃ c, d.shards.lookup k = some c ∧ e ≤ s + c.length
  cover : ∀ g : Int, 0 ≤ g → g < (d.totalSamples : Int) →
    (findEntry g d.shardIndices).isSome
  cc : ∀ k, d.currentShardKey = some k → d.currentShard = some (d.load_shard k)
  rankLt : d.rank < d.worldSize
  lenMul : d.len * d.worldSize = d.totalSamples

end DistributedShardedDataset

/-- `true` iff some range of the table contains global index `g`. -/
def coversB (l : List (String × Nat × Nat)) (g : Nat) : Bool :=
  l.any fun p => decide (p.2.1 ≤ g ∧ g < p.2.2)

/-- Range start recorded for a shard key (0 if the key is absent). -/
def startOf (l : List (String × Nat × Nat)) (k : String) : Nat :=
  (((l.lookup k)).map Prod.fst).getD 0

/-- State of a `ResumableSequentialSampler`: the data source is only used
through `len(data_source)`, recorded as `data_length`. -/
structure ResumableSequentialSampler where
  data_length : Int
  start_index : Int
  index : Int
deriving DecidableEq

namespace ResumableSequentialSampler

/-- `ResumableSequentialSampler.__init__`. -/
def init (dataSourceLen : Nat) (startIndex : Int) : ResumableSequentialSampler :=
  { data_length := (dataSourceLen : Int), start_index := startIndex, index := startIndex }

/-- The values yielded by the `__iter__` loop starting from counter `i`:
`while index < data_length: yield index; index += 1`. -/
def iterFrom (i dataLength : Int) : List Int :=
  if h : i < dataLength then i :: iterFrom (i + 1) dataLength else []
termination_by (dataLength - i).toNat
decreasing_by omega

/-- The full output of iterating the sampler. -/
def toList (s : ResumableSequentialSampler) : List Int :=
  iterFrom s.index s.data_length

/-- `__len__`: `data_length - start_index`. -/
def samplerLen (s : ResumableSequentialSampler) : Int :=
  s.data_length - s.start_index

end ResumableSequentialSampler

/-- Fallback view used when extracting from a failed construction. -/
def emptyView : DistributedShardedDataset Nat :=
  { shards := [], rank := 0, worldSize := 1, shardIndices := [], totalSamples := 0,
    currentShardKey := none, currentShard := none }

/-- Extract the constructed view, falling back to `emptyView` on error. -/
def viewOr (x : Except PyError (DistributedShardedDataset Nat)) :
    DistributedShardedDataset Nat :=
  match x with
  | Except.ok d => d
  | Except.error _ => emptyView

/-- Two shards of four samples each. -/
def sampleShards : List (String × List Nat) :=
  [("a", [10, 11, 12, 13]), ("b", [20, 21, 22, 23])]

/-- Rank 0 of 2 over `sampleShards`. -/
def sampleView0 : DistributedShardedDataset Nat :=
  viewOr (DistributedShardedDataset.init sampleShards 0 2)

/-- Rank 1 of 2 over `sampleShards`. -/
def sampleView1 : DistributedShardedDataset Nat :=
  viewOr (DistributedShardedDataset.init sampleShards 1 2)

/-- The single rank of a `world_size = 1` view over `sampleShards`. -/
def sampleViewW1 : DistributedShardedDataset Nat :=
  viewOr (DistributedShardedDataset.init sampleShards 0 1)

/-- Shards of sizes 5 and 1: with `world_size = 4` the 2 dropped samples
exceed the last shard, leaving its range `[5, 4)` empty and the first
range poking past `total_samples = 4`. -/
def badShards : List (String × List Nat) :=
  [("a", [0, 1, 2, 3, 4]), ("b", [5])]

/-- Rank 0 of 4 over `badShards`. -/
def badView : DistributedShardedDataset Nat :=
  viewOr (DistributedShardedDataset.init badShards 0 4)

/-- The spec's concrete scenario 8: shards of sizes 10, 10, 7. -/
def ex3Shards : List (String × List Nat) :=
  [("a", List.range 10), ("b", List.range 10), ("c", List.range 7)]

/-- Length of the last-in-order shard (0 for an empty list). -/
def lastLen (lens : List (String × Nat)) : Nat :=
  ((lens.getLast?).map Prod.snd).getD 0

theorem sumLens_nil : sumLens [] = 0 := rfl

theorem sumLens_cons (k : String) (n : Nat) (l : List (String × Nat)) :
    sumLens ((k, n) :: l) = n + sumLens l := by
  simp [sumLens]

theorem getLast?_cons_ne {α : Type} (a : α) (l : List α) (h : l ≠ []) :
    (a :: l).getLast? = l.getLast? := by
  cases l with
  | nil => exact absurd rfl h
  | cons b bs => exact List.getLast?_cons_cons

theorem lastLen_cons (k : String) (n : Nat) (l : List (String × Nat)) (h : l ≠ []) :
    lastLen ((k, n) :: l) = lastLen l := by
  rw [lastLen, getLast?_cons_ne _ _ h, lastLen]

theorem lastLen_le_sumLens (l : List (String × Nat)) : lastLen l ≤ sumLens l := by
  induction l with
  | nil => simp [lastLen, sumLens]
  | cons x xs ih =>
    obtain ⟨k, n⟩ := x
    cases xs with
    | nil => simp [lastLen, sumLens]
    | cons y ys =>
      rw [lastLen_cons _ _ _ (by simp), sumLens_cons]
      omega

theorem truncRaw_single (ws b : Nat) (k : String) (n : Nat) :
    truncateLast ws (rawIndices [(k, n)] b) =
      [(k, b, b + n - (b + n) % ws)] := rfl

theorem truncRaw_cons (ws b : Nat) (k : String) (n : Nat)
    (l : List (String × Nat)) (h : l ≠ []) :
    truncateLast ws (rawIndices ((k, n) :: l) b) =
      (k, b, b + n) :: truncateLast ws (rawIndices l (b + n)) := by
  cases l with
  | nil => exact absurd rfl h
  | cons x xs => cases x; rfl

theorem truncRaw_ne_nil (ws b : Nat) (l : List (String × Nat)) (h : l ≠ []) :
    truncateLast ws (rawIndices l b) ≠ [] := by
  cases l with
  | nil => exact absurd rfl h
  | cons x xs =>
    obtain ⟨k, n⟩ := x
    cases xs with
    | nil => simp [truncRaw_single]
    | cons y ys => rw [truncRaw_cons _ _ _ _ _ (by simp)]; simp

/-- Every range of the built table starts at or after the running base, and
its end exceeds its start by at most the corresponding shard's length. -/
theorem truncRaw_mem (ws : Nat) :
    ∀ (lens : List (String × Nat)) (b : Nat) (p : String × Nat × Nat),
      p ∈ truncateLast ws (rawIndices lens b) →
      b ≤ p.2.1 ∧ ∃ n, (p.1, n) ∈ lens ∧ p.2.2 ≤ p.2.1 + n
  | [], b, p, hp => by simp [rawIndices, truncateLast] at hp
  | [(k, n)], b, p, hp => by
    rw [truncRaw_single] at hp
    simp only [List.mem_singleton] at hp
    subst hp
    exact ⟨le_refl b, n, by simp, Nat.sub_le _ _⟩
  | (k, n) :: (k', n') :: rest, b, p, hp => by
    rw [truncRaw_cons _ _ _ _ _ (by simp)] at hp
    rcases List.mem_cons.mp hp with h1 | h1
    · subst h1
      exact ⟨le_refl b, n, by simp, le_refl _⟩
    · obtain ⟨hb, m, hm, he⟩ := truncRaw_mem ws ((k', n') :: rest) (b + n) p h1
      exact ⟨by omega, m, List.mem_cons_of_mem _ hm, he⟩

/-- Ranges of the built table are separated: each ends at or before any
later one starts. -/
theorem truncRaw_sep (ws : Nat) :
    ∀ (lens : List (String × Nat)) (b : Nat),
      List.Pairwise (fun p q => p.2.2 ≤ q.2.1) (truncateLast ws (rawIndices lens b))
  | [], b => by simp [rawIndices, truncateLast]
  | [(k, n)], b => by rw [truncRaw_single]; simp
  | (k, n) :: (k', n') :: rest, b => by
    rw [truncRaw_cons _ _ _ _ _ (by simp)]
    refine List.Pairwise.cons ?_ (truncRaw_sep ws ((k', n') :: rest) (b + n))
    intro q hq
    exact (truncRaw_mem ws _ _ q hq).1

/-- Range starts are non-decreasing along the table. -/
theorem truncRaw_chain (ws : Nat) :
    ∀ (lens : List (String × Nat)) (b : Nat),
      List.Chain' (fun p q => p.2.1 ≤ q.2.1) (truncateLast ws (rawIndices lens b))
  | [], b => by simp [rawIndices, truncateLast]
  | [(k, n)], b => by rw [truncRaw_single]; simp
  | (k, n) :: (k', n') :: rest, b => by
    rw [truncRaw_cons _ _ _ _ _ (by simp)]
    refine List.Chain'.cons' (truncRaw_chain ws ((k', n') :: rest) (b + n)) ?_
    intro q hq
    have hmem := List.mem_of_mem_head? hq
    exact le_trans (Nat.le_add_right b n) (truncRaw_mem ws _ _ q hmem).1

theorem truncRaw_keys (ws : Nat) :
    ∀ (lens : List (String × Nat)) (b : Nat),
      (truncateLast ws (rawIndices lens b)).map Prod.fst = lens.map Prod.fst
  | [], b => rfl
  | [(k, n)], b => by rw [truncRaw_single]; rfl
  | (k, n) :: (k', n') :: rest, b => by
    rw [truncRaw_cons _ _ _ _ _ (by simp)]
    simp only [List.map_cons]
    rw [truncRaw_keys ws ((k', n') :: rest) (b + n)]
    simp

theorem truncRaw_dropLast (ws : Nat) :
    ∀ (lens : List (String × Nat)) (b : Nat),
      (truncateLast ws (rawIndices lens b)).dropLast = (rawIndices lens b).dropLast
  | [], b => rfl
  | [(k, n)], b => by rw [truncRaw_single]; rfl
  | (k, n) :: (k', n') :: rest, b => by
    rw [truncRaw_cons _ _ _ _ _ (by simp)]
    show List.dropLast (_ :: _) = List.dropLast (_ :: _)
    have h1 := truncRaw_ne_nil ws (b + n) ((k', n') :: rest) (by simp)
    have h2 : rawIndices ((k', n') :: rest) (b + n) ≠ [] := by simp [rawIndices]
    rw [List.dropLast_cons_of_ne_nil h1, List.dropLast_cons_of_ne_nil h2,
      truncRaw_dropLast ws ((k', n') :: rest) (b + n)]

theorem raw_getLast :
    ∀ (lens : List (String × Nat)) (b : Nat), lens ≠ [] →
      ∃ k n, lens.getLast? = some (k, n) ∧
        (rawIndices lens b).getLast? =
          some (k, b + sumLens lens - n, b + sumLens lens)
  | [], _, h => absurd rfl h
  | [(k, n)], b, _ => by
    refine ⟨k, n, by simp, ?_⟩
    show ([(k, b, b + n)].getLast?) = _
    simp [sumLens]
  | (k, n) :: (k', n') :: rest, b, _ => by
    obtain ⟨k0, n0, h1, h2⟩ := raw_getLast ((k', n') :: rest) (b + n) (by simp)
    refine ⟨k0, n0, by rw [List.getLast?_cons_cons]; exact h1, ?_⟩
    show ((k, b, b + n) :: rawIndices ((k', n') :: rest) (b + n)).getLast? = _
    rw [sumLens_cons, ← Nat.add_assoc, getLast?_cons_ne _ _ (by simp [rawIndices])]
    exact h2

theorem truncRaw_getLast (ws : Nat) :
    ∀ (lens : List (String × Nat)) (b : Nat), lens ≠ [] →
      ∃ k n, lens.getLast? = some (k, n) ∧
        (truncateLast ws (rawIndices lens b)).getLast? =
          some (k, b + sumLens lens - n,
            b + sumLens lens - (b + sumLens lens) % ws)
  | [], _, h => absurd rfl h
  | [(k, n)], b, _ => by
    refine ⟨k, n, by simp, ?_⟩
    rw [truncRaw_single]
    simp [sumLens]
  | (k, n) :: (k', n') :: rest, b, _ => by
    obtain ⟨k0, n0, h1, h2⟩ := truncRaw_getLast ws ((k', n') :: rest) (b + n) (by simp)
    refine ⟨k0, n0, by rw [List.getLast?_cons_cons]; exact h1, ?_⟩
    rw [truncRaw_cons _ _ _ _ _ (by simp), sumLens_cons, ← Nat.add_assoc,
      getLast?_cons_ne _ _ (truncRaw_ne_nil ws (b + n) _ (by simp))]
    exact h2

/-- `total_samples` of a non-empty registry: the raw sample sum rounded down
to a multiple of `world_size`. -/
theorem lastEnd_truncRaw (ws : Nat) (lens : List (String × Nat)) (h : lens ≠ []) :
    lastEnd (truncateLast ws (rawIndices lens 0)) =
      sumLens lens - sumLens lens % ws := by
  obtain ⟨k0, n0, _, h2⟩ := truncRaw_getLast ws lens 0 h
  rw [lastEnd, h2]
  simp

/-- Coverage: every global index below the truncated total lies in some
range of the table. -/
theorem truncRaw_cover (ws : Nat) :
    ∀ (lens : List (String × Nat)) (b : Nat) (g : Nat), b ≤ g →
      g < b + sumLens lens - (b + sumLens lens) % ws →
      ∃ p ∈ truncateLast ws (rawIndices lens b), p.2.1 ≤ g ∧ g < p.2.2
  | [], b, g, hb, hg => by
    rw [sumLens_nil] at hg
    omega
  | [(k, n)], b, g, hb, hg => by
    rw [truncRaw_single]
    simp only [sumLens, List.map_cons, List.map_nil, List.sum_cons, List.sum_nil,
      Nat.add_zero] at hg
    exact ⟨(k, b, b + n - (b + n) % ws), by simp, hb, hg⟩
  | (k, n) :: (k', n') :: rest, b, g, hb, hg => by
    rw [truncRaw_cons _ _ _ _ _ (by simp)]
    rw [sumLens_cons, ← Nat.add_assoc] at hg
    by_cases hlt : g < b + n
    · exact ⟨(k, b, b + n), by simp, hb, hlt⟩
    · obtain ⟨p, hp, h1, h2⟩ :=
        truncRaw_cover ws ((k', n') :: rest) (b + n) g (by omega) (by omega)
      exact ⟨p, List.mem_cons_of_mem _ hp, h1, h2⟩

/-- When the dropped remainder fits inside the last shard, no range extends
past the truncated total. -/
theorem truncRaw_bound (ws : Nat) :
    ∀ (lens : List (String × Nat)) (b : Nat),
      (b + sumLens lens) % ws ≤ lastLen lens →
      ∀ p ∈ truncateLast ws (rawIndices lens b), ∀ g : Nat,
        p.2.1 ≤ g → g < p.2.2 →
        g < b + sumLens lens - (b + sumLens lens) % ws
  | [], b, hrem, p, hp, g, h1, h2 => by simp [rawIndices, truncateLast] at hp
  | [(k, n)], b, hrem, p, hp, g, h1, h2 => by
    rw [truncRaw_single] at hp
    simp only [List.mem_singleton] at hp
    subst hp
    simp only [sumLens, List.map_cons, List.map_nil, List.sum_cons, List.sum_nil,
      Nat.add_zero]
    exact h2
  | (k, n) :: (k', n') :: rest, b, hrem, p, hp, g, h1, h2 => by
    rw [truncRaw_cons _ _ _ _ _ (by simp)] at hp
    rw [lastLen_cons _ _ _ (by simp), sumLens_cons, ← Nat.add_assoc] at hrem
    rw [sumLens_cons, ← Nat.add_assoc]
    have hlast := lastLen_le_sumLens ((k', n') :: rest)
    rcases List.mem_cons.mp hp with h3 | h3
    · subst h3
      have h2' : g < b + n := h2
      omega
    · exact truncRaw_bound ws ((k', n') :: rest) (b + n) hrem p h3 g h1 h2

/-- A global index strictly below the last shard's range start is covered
by one of the earlier (non-last) raw ranges, which truncation leaves
untouched. -/
theorem raw_cover_strict :
    ∀ (lens : List (String × Nat)) (b g : Nat), b ≤ g →
      g < b + sumLens lens - lastLen lens →
      ∃ p ∈ (rawIndices lens b).dropLast, p.2.1 ≤ g ∧ g < p.2.2
  | [], b, g, hb, hg => by
    rw [sumLens_nil] at hg
    simp only [lastLen, List.getLast?_nil, Option.map_none', Option.getD_none] at hg
    omega
  | [(k, n)], b, g, hb, hg => by
    exfalso
    have h1 : lastLen [(k, n)] = n := by simp [lastLen]
    have h2 : sumLens [(k, n)] = n := by simp [sumLens]
    rw [h1, h2] at hg
    omega
  | (k, n) :: (k', n') :: rest, b, g, hb, hg => by
    rw [sumLens_cons, lastLen_cons _ _ _ (by simp), ← Nat.add_assoc] at hg
    have hne' : rawIndices ((k', n') :: rest) (b + n) ≠ [] := by simp [rawIndices]
    by_cases hlt : g < b + n
    · refine ⟨(k, b, b + n), ?_, hb, hlt⟩
      show (k, b, b + n) ∈
        ((k, b, b + n) :: rawIndices ((k', n') :: rest) (b + n)).dropLast
      rw [List.dropLast_cons_of_ne_nil hne']
      exact List.mem_cons_self _ _
    · obtain ⟨p, hp, h1, h2⟩ :=
        raw_cover_strict ((k', n') :: rest) (b + n) g (by omega) (by omega)
      refine ⟨p, ?_, h1, h2⟩
      show p ∈ ((k, b, b + n) :: rawIndices ((k', n') :: rest) (b + n)).dropLast
      rw [List.dropLast_cons_of_ne_nil hne']
      exact List.mem_cons_of_mem _ hp

/-- When the dropped remainder exceeds the last shard's length, the
truncated total itself is still covered by a range of the table: the union
of the ranges then strictly exceeds `[0, total_samples)`. -/
theorem truncRaw_cover_total (ws : Nat) (lens : List (String × Nat))
    (hrem : lastLen lens < sumLens lens % ws) :
    ∃ p ∈ truncateLast ws (rawIndices lens 0),
      p.2.1 ≤ sumLens lens - sumLens lens % ws ∧
      sumLens lens - sumLens lens % ws < p.2.2 := by
  have hr : sumLens lens % ws ≤ sumLens lens := Nat.mod_le _ _
  obtain ⟨p, hp, h1, h2⟩ := raw_cover_strict lens 0
    (sumLens lens - sumLens lens % ws) (Nat.zero_le _) (by omega)
  rw [← truncRaw_dropLast ws lens 0] at hp
  exact ⟨p, List.mem_of_mem_dropLast hp, h1, h2⟩

theorem findEntry_mem (g : Int) :
    ∀ (l : List (String × Nat × Nat)) (p : String × Nat × Nat),
      findEntry g l = some p →
      p ∈ l ∧ (p.2.1 : Int) ≤ g ∧ g < (p.2.2 : Int) := by
  intro l
  induction l with
  | nil => intro p h; simp [findEntry] at h
  | cons x rest ih =>
    intro p h
    obtain ⟨k, s, e⟩ := x
    rw [findEntry] at h
    split_ifs at h with hc
    · injection h with h
      subst h
      exact ⟨List.mem_cons_self _ _, hc.1, hc.2⟩
    · obtain ⟨h1, h2, h3⟩ := ih p h
      exact ⟨List.mem_cons_of_mem _ h1, h2, h3⟩

theorem findEntry_isSome (g : Int) :
    ∀ (l : List (String × Nat × Nat)) (p : String × Nat × Nat), p ∈ l →
      (p.2.1 : Int) ≤ g → g < (p.2.2 : Int) → (findEntry g l).isSome := by
  intro l
  induction l with
  | nil => intro p hp; simp at hp
  | cons x rest ih =>
    intro p hp h1 h2
    obtain ⟨k, s, e⟩ := x
    rw [findEntry]
    split_ifs with hc
    · simp
    · rcases List.mem_cons.mp hp with h | h
      · subst h
        exact absurd ⟨h1, h2⟩ hc
      · exact ih p h h1 h2

/-- A global index inside the found range resolves to the same range: the
scan's answer is stable across a whole range. -/
theorem findEntry_stable (g g' : Int) :
    ∀ (l : List (String × Nat × Nat)),
      List.Pairwise (fun p q => p.2.2 ≤ q.2.1) l →
      ∀ p, findEntry g l = some p → (p.2.1 : Int) ≤ g' → g' < (p.2.2 : Int) →
      findEntry g' l = some p := by
  intro l
  induction l with
  | nil => intro _ p hf; simp [findEntry] at hf
  | cons x rest ih =>
    intro hsep p hf h1 h2
    obtain ⟨k, s, e⟩ := x
    obtain ⟨hhead, htail⟩ := List.pairwise_cons.mp hsep
    rw [findEntry] at hf ⊢
    split_ifs at hf with hc
    · injection hf with hf
      subst hf
      rw [if_pos ⟨h1, h2⟩]
    · have hmem := (findEntry_mem g rest p hf).1
      have he : e ≤ p.2.1 := hhead p hmem
      rw [if_neg ?_]
      · exact ih htail p hf h1 h2
      · rintro ⟨hc1, hc2⟩
        have hce : (e : Int) ≤ g' := le_trans (by exact_mod_cast he) h1
        omega

/-- A global index at or past the found range's end resolves to a strictly
later range: the scan never goes back. -/
theorem findEntry_move (g g' : Int) :
    ∀ (l : List (String × Nat × Nat)),
      List.Pairwise (fun p q => p.2.2 ≤ q.2.1) l →
      ∀ p q, findEntry g l = some p → ((p.2.2 : Int)) ≤ g' →
      findEntry g' l = some q → p.2.2 ≤ q.2.1 := by
  intro l
  induction l with
  | nil => intro _ p q hf; simp [findEntry] at hf
  | cons x rest ih =>
    intro hsep p q hf hle hf'
    obtain ⟨k, s, e⟩ := x
    obtain ⟨hhead, htail⟩ := List.pairwise_cons.mp hsep
    rw [findEntry] at hf hf'
    split_ifs at hf with hc
    · injection hf with hf
      subst hf
      split_ifs at hf' with hc'
      · exfalso
        have hle' : (e : Int) ≤ g' := hle
        have hc2 := hc'.2
        omega
      · exact hhead q (findEntry_mem g' rest q hf').1
    · have hpmem := findEntry_mem g rest p hf
      have he : e ≤ p.2.1 := hhead p hpmem.1
      split_ifs at hf' with hc'
      · exfalso
        have hse : (p.2.1 : Int) < (p.2.2 : Int) := lt_of_le_of_lt hpmem.2.1 hpmem.2.2
        have hee : (e : Int) ≤ (p.2.1 : Int) := by exact_mod_cast he
        have hc2 := hc'.2
        omega
      · exact ih htail p q hf hle hf'

/-- Association-list lookup finds exactly the unique entry of a key when
keys are distinct. -/
theorem lookup_of_mem_nodup {β : Type} {l : List (String × β)} {k : String} {v : β}
    (hnd : (l.map Prod.fst).Nodup) (h : (k, v) ∈ l) : l.lookup k = some v := by
  induction l with
  | nil => simp at h
  | cons x t ih =>
    obtain ⟨k', v'⟩ := x
    simp only [List.map_cons, List.nodup_cons, List.mem_map] at hnd
    rcases List.mem_cons.mp h with h1 | h1
    · obtain ⟨rfl, rfl⟩ := Prod.mk.injEq .. ▸ h1
      simp [List.lookup]
    · have hne : (k == k') = false := by
        refine beq_eq_false_iff_ne.mpr ?_
        rintro rfl
        exact hnd.1 ⟨(k, v), h1, rfl⟩
      simp only [List.lookup, hne]
      exact ih hnd.2 h1

theorem sortedShards_keys {α : Type} (sp : List (String × List α)) :
    (sortedShards sp).map Prod.fst =
      List.insertionSort (fun a b => keyLe a b = true) (sp.map Prod.fst) := by
  rw [sortedShards, List.map_map]
  have hid : (Prod.fst ∘ fun k : String => (k, ((sp.lookup k).getD []))) = id := rfl
  rw [hid, List.map_id]

theorem sortedShards_ne_nil {α : Type} (sp : List (String × List α)) (h : sp ≠ []) :
    sortedShards sp ≠ [] := by
  intro hc
  apply h
  have hlen := congrArg List.length hc
  rw [sortedShards, List.length_map, (List.perm_insertionSort _ _).length_eq,
    List.length_map] at hlen
  exact List.length_eq_zero.mp hlen

theorem sortedShards_keys_nodup {α : Type} (sp : List (String × List α))
    (hnd : (sp.map Prod.fst).Nodup) : ((sortedShards sp).map Prod.fst).Nodup := by
  rw [sortedShards_keys sp]
  exact ((List.perm_insertionSort _ _).nodup_iff).mpr hnd

theorem lensOf_keys {α : Type} (shards : List (String × List α)) :
    (lensOf shards).map Prod.fst = shards.map Prod.fst := by
  simp [lensOf, List.map_map]

theorem lensOf_ne_nil {α : Type} (shards : List (String × List α)) (h : shards ≠ []) :
    lensOf shards ≠ [] := by
  intro hc
  exact h (List.map_eq_nil_iff.mp hc)

theorem total_mod (S ws : Nat) : (S - S % ws) % ws = 0 := by
  have h0 := Nat.div_add_mod S ws
  have h1 : S - S % ws = ws * (S / ws) := by omega
  rw [h1, Nat.mul_mod_right]

theorem total_div_mul (S ws : Nat) : (S - S % ws) / ws * ws = S - S % ws := by
  have h0 := Nat.div_add_mod S ws
  have h1 : S - S % ws = ws * (S / ws) := by omega
  rw [h1]
  rcases Nat.eq_zero_or_pos ws with h | h
  · simp [h]
  · rw [Nat.mul_div_cancel_left _ h, Nat.mul_comm]

namespace DistributedShardedDataset

/-- Inversion of a successful `__init__`. -/
theorem init_ok_inv {α : Type} {sp : List (String × List α)} {r w : Int}
    {d : DistributedShardedDataset α}
    (h : DistributedShardedDataset.init sp r w = Except.ok d) :
    (0 ≤ r ∧ r < w) ∧ sp ≠ [] ∧
      d.shards = sortedShards sp ∧
      d.rank = r.toNat ∧ d.worldSize = w.toNat ∧
      d.shardIndices =
        truncateLast w.toNat (rawIndices (lensOf (sortedShards sp)) 0) ∧
      d.totalSamples = lastEnd d.shardIndices ∧
      d.currentShardKey = none ∧ d.currentShard = none := by
  simp only [DistributedShardedDataset.init] at h
  split_ifs at h with h1 h2 h3
  injection h with h
  subst h
  refine ⟨by tauto, ?_, rfl, rfl, rfl, rfl, rfl, rfl, rfl⟩
  intro hc
  exact h2 (by rw [hc]; rfl)

/-- The raw-sum formula for `total_samples` of a successful `__init__`. -/
theorem init_total {α : Type} {sp : List (String × List α)} {r w : Int}
    {d : DistributedShardedDataset α}
    (h : DistributedShardedDataset.init sp r w = Except.ok d) :
    d.totalSamples = sumLens (lensOf (sortedShards sp)) -
      sumLens (lensOf (sortedShards sp)) % w.toNat := by
  obtain ⟨_, hsp, _, _, _, hsi, hts, _, _⟩ := init_ok_inv h
  rw [hts, hsi, lastEnd_truncRaw]
  exact lensOf_ne_nil _ (sortedShards_ne_nil sp hsp)

/-- A successful `__init__` establishes all the `GoodView` facts. -/
theorem init_good {α : Type} {sp : List (String × List α)} {r w : Int}
    {d : DistributedShardedDataset α} (hnd : (sp.map Prod.fst).Nodup)
    (h : DistributedShardedDataset.init sp r w = Except.ok d) : GoodView d := by
  obtain ⟨⟨hr0, hrw⟩, hsp, hsh, hrk, hws, hsi, hts, hck, hcs⟩ := init_ok_inv h
  have htotal := init_total h
  refine ⟨?_, ?_, ?_, ?_, ?_, ?_, ?_⟩
  · rw [hsi]
    exact truncRaw_sep _ _ _
  · rw [hsi, truncRaw_keys, lensOf_keys, ← hsh]
    rw [hsh]
    exact sortedShards_keys_nodup sp hnd
  · intro k s e hmem
    rw [hsi] at hmem
    obtain ⟨hb, n, hn, he⟩ := truncRaw_mem _ _ _ _ hmem
    simp only [lensOf, List.mem_map] at hn
    obtain ⟨⟨k', c⟩, hc, heq⟩ := hn
    obtain ⟨rfl, rfl⟩ := Prod.mk.injEq .. ▸ heq
    refine ⟨c, ?_, he⟩
    rw [hsh]
    exact lookup_of_mem_nodup (sortedShards_keys_nodup sp hnd) hc
  · intro g hg0 hgt
    rw [hsi]
    have hcov := truncRaw_cover w.toNat (lensOf (sortedShards sp)) 0 g.toNat
      (Nat.zero_le _) ?_
    · obtain ⟨p, hp, hp1, hp2⟩ := hcov
      exact findEntry_isSome g _ p hp (by omega) (by omega)
    · rw [Nat.zero_add]
      have hlt : g.toNat < d.totalSamples := by omega
      rw [htotal] at hlt
      exact hlt
  · intro k hk
    rw [hck] at hk
    exact Option.noConfusion hk
  · rw [hrk, hws]
    omega
  · show d.totalSamples / d.worldSize * d.worldSize = d.totalSamples
    rw [htotal, hws]
    exact total_div_mul _ _

theorem setShard_shards {α : Type} (d : DistributedShardedDataset α) (k : String) :
    (d.setShard k).shards = d.shards := by
  rw [setShard]
  split_ifs <;> rfl

theorem setShard_rank {α : Type} (d : DistributedShardedDataset α) (k : String) :
    (d.setShard k).rank = d.rank := by
  rw [setShard]
  split_ifs <;> rfl

theorem setShard_worldSize {α : Type} (d : DistributedShardedDataset α) (k : String) :
    (d.setShard k).worldSize = d.worldSize := by
  rw [setShard]
  split_ifs <;> rfl

theorem setShard_shardIndices {α : Type} (d : DistributedShardedDataset α) (k : String) :
    (d.setShard k).shardIndices = d.shardIndices := by
  rw [setShard]
  split_ifs <;> rfl

theorem setShard_totalSamples {α : Type} (d : DistributedShardedDataset α) (k : String) :
    (d.setShard k).totalSamples = d.totalSamples := by
  rw [setShard]
  split_ifs <;> rfl

theorem setShard_len {α : Type} (d : DistributedShardedDataset α) (k : String) :
    (d.setShard k).len = d.len := by
  show (d.setShard k).totalSamples / (d.setShard k).worldSize = _
  rw [setShard_totalSamples, setShard_worldSize]
  rfl

theorem setShard_load {α : Type} (d : DistributedShardedDataset α) (k k' : String) :
    (d.setShard k).load_shard k' = d.load_shard k' := by
  show ((d.setShard k).shards.lookup k').getD [] = _
  rw [setShard_shards]
  rfl

theorem setShard_key {α : Type} (d : DistributedShardedDataset α) (k : String) :
    (d.setShard k).currentShardKey = some k := by
  rw [setShard]
  split_ifs with h
  · exact h
  · rfl

theorem setShard_shard {α : Type} (d : DistributedShardedDataset α) (k : String)
    (hcc : ∀ k', d.currentShardKey = some k' → d.currentShard = some (d.load_shard k')) :
    (d.setShard k).currentShard = some (d.load_shard k) := by
  rw [setShard]
  split_ifs with h
  · exact hcc k h
  · rfl

theorem good_setShard {α : Type} {d : DistributedShardedDataset α} (k : String)
    (hG : GoodView d) : GoodView (d.setShard k) := by
  refine ⟨?_, ?_, ?_, ?_, ?_, ?_, ?_⟩
  · rw [setShard_shardIndices]
    exact hG.sep
  · rw [setShard_shardIndices]
    exact hG.keysNodup
  · rw [setShard_shardIndices, setShard_shards]
    exact hG.link
  · rw [setShard_shardIndices, setShard_totalSamples]
    exact hG.cover
  · intro k' hk'
    rw [setShard_key] at hk'
    injection hk' with hk'
    subst hk'
    rw [setShard_load]
    exact setShard_shard d k hG.cc
  · rw [setShard_rank, setShard_worldSize]
    exact hG.rankLt
  · rw [setShard_len, setShard_worldSize, setShard_totalSamples]
    exact hG.lenMul

/-- Success of `rank_index_to_shard_index` when the scan finds a range. -/
theorem shard_index_of_find {α : Type} (d : DistributedShardedDataset α)
    {rankIndex : Int} {k : String} {s e : Nat}
    (hfind : findEntry (d.rank_index_to_global_index rankIndex) d.shardIndices =
      some (k, s, e)) :
    d.rank_index_to_shard_index rankIndex =
      Except.ok (k, d.rank_index_to_global_index rankIndex - (s : Int)) := by
  rw [rank_index_to_shard_index, hfind]

/-- Behaviour of a successful `__getitem__` call: the resolved shard's
content is looked up at `global_index - start`, and the post-state is the
input state with the cache cell pointed at the resolved shard. -/
theorem getItem_ok {α : Type} {d : DistributedShardedDataset α} (hG : GoodView d)
    {rankIndex : Int} {k : String} {s e : Nat}
    (hlt : rankIndex < (d.len : Int))
    (hfind : findEntry (d.rank_index_to_global_index rankIndex) d.shardIndices =
      some (k, s, e)) :
    ∃ x, (d.load_shard k).get?
        (d.rank_index_to_global_index rankIndex - (s : Int)).toNat = some x ∧
      d.getItem rankIndex = Except.ok (x, d.setShard k) := by
  have hfm := findEntry_mem _ _ _ hfind
  obtain ⟨c, hlk, hle⟩ := hG.link k s e hfm.1
  have hload : d.load_shard k = c := by
    rw [load_shard, hlk]
    rfl
  have hs : (s : Int) ≤ d.rank_index_to_global_index rankIndex := hfm.2.1
  have he : d.rank_index_to_global_index rankIndex < (e : Int) := hfm.2.2
  have hoff : (d.rank_index_to_global_index rankIndex - (s : Int)).toNat < c.length := by
    omega
  refine ⟨c.get ⟨_, hoff⟩, ?_, ?_⟩
  · rw [hload]
    exact List.get?_eq_get hoff
  · rw [getItem, if_neg (not_le.mpr hlt), shard_index_of_find d hfind]
    show (match (d.setShard k).currentShard with
      | none => Except.error PyError.assertionError
      | some content =>
        match (if 0 ≤ d.rank_index_to_global_index rankIndex - (s : Int) then
            content.get? (d.rank_index_to_global_index rankIndex - (s : Int)).toNat
          else none) with
        | some sample => Except.ok (sample, d.setShard k)
        | none => Except.error PyError.indexError) = _
    rw [setShard_shard d k hG.cc, hload]
    show (match (if 0 ≤ d.rank_index_to_global_index rankIndex - (s : Int) then
            c.get? (d.rank_index_to_global_index rankIndex - (s : Int)).toNat
          else none) with
        | some sample => Except.ok (sample, d.setShard k)
        | none => Except.error PyError.indexError) = _
    rw [if_pos (by omega : (0:Int) ≤ d.rank_index_to_global_index rankIndex - (s : Int)),
      List.get?_eq_get hoff]

/-- The range table, expressed over the view's own fields. -/
theorem init_shardIndices {α : Type} {sp : List (String × List α)} {r w : Int}
    {d : DistributedShardedDataset α}
    (hok : DistributedShardedDataset.init sp r w = Except.ok d) :
    d.shardIndices = truncateLast d.worldSize (rawIndices (lensOf d.shards) 0) := by
  obtain ⟨_, _, hsh, _, hws, hsi, _, _, _⟩ := init_ok_inv hok
  rw [hsh, hws]
  exact hsi

/-- `total_samples`, expressed over the view's own fields. -/
theorem init_total_self {α : Type} {sp : List (String × List α)} {r w : Int}
    {d : DistributedShardedDataset α}
    (hok : DistributedShardedDataset.init sp r w = Except.ok d) :
    d.totalSamples =
      sumLens (lensOf d.shards) - sumLens (lensOf d.shards) % d.worldSize := by
  obtain ⟨_, _, hsh, _, hws, _, _, _, _⟩ := init_ok_inv hok
  rw [hsh, hws]
  exact init_total hok

theorem init_shards_ne_nil {α : Type} {sp : List (String × List α)} {r w : Int}
    {d : DistributedShardedDataset α}
    (hok : DistributedShardedDataset.init sp r w = Except.ok d) : d.shards ≠ [] := by
  obtain ⟨_, hsp, hsh, _, _, _, _, _, _⟩ := init_ok_inv hok
  rw [hsh]
  exact sortedShards_ne_nil sp hsp

/-- A valid rank-local index maps to a global index in `[0, total_samples)`. -/
theorem glob_bounds {α : Type} {d : DistributedShardedDataset α} (hG : GoodView d)
    {i : Int} (hi0 : 0 ≤ i) (hilt : i < (d.len : Int)) :
    0 ≤ d.rank_index_to_global_index i ∧
      d.rank_index_to_global_index i < (d.totalSamples : Int) := by
  have h2 : d.rank + 1 ≤ d.worldSize := hG.rankLt
  have h3 := Nat.mul_le_mul_left d.len h2
  rw [Nat.mul_succ] at h3
  rw [hG.lenMul] at h3
  simp only [rank_index_to_global_index]
  omega

/-- The scan of `rank_index_to_shard_index` always succeeds on a valid
rank-local index. -/
theorem find_of_valid {α : Type} {d : DistributedShardedDataset α} (hG : GoodView d)
    {i : Int} (hi0 : 0 ≤ i) (hilt : i < (d.len : Int)) :
    ∃ k s e, findEntry (d.rank_index_to_global_index i) d.shardIndices =
      some (k, s, e) := by
  obtain ⟨hg0, hgt⟩ := glob_bounds hG hi0 hilt
  obtain ⟨p, hp⟩ := Option.isSome_iff_exists.mp (hG.cover _ hg0 hgt)
  obtain ⟨k, s, e⟩ := p
  exact ⟨k, s, e, hp⟩

/-- `per_rank_length` depends only on the registry and the world size. -/
theorem init_len_eq {α : Type} {sp : List (String × List α)} {r1 r2 w : Int}
    {d1 d2 : DistributedShardedDataset α}
    (h1 : DistributedShardedDataset.init sp r1 w = Except.ok d1)
    (h2 : DistributedShardedDataset.init sp r2 w = Except.ok d2) :
    d1.len = d2.len := by
  obtain ⟨_, _, _, _, hws1, _, _, _, _⟩ := init_ok_inv h1
  obtain ⟨_, _, _, _, hws2, _, _, _, _⟩ := init_ok_inv h2
  show d1.totalSamples / d1.worldSize = d2.totalSamples / d2.worldSize
  rw [init_total h1, init_total h2, hws1, hws2]

end DistributedShardedDataset

theorem coversB_iff (l : List (String × Nat × Nat)) (g : Nat) :
    coversB l g = true ↔ ∃ p ∈ l, p.2.1 ≤ g ∧ g < p.2.2 := by
  simp [coversB, List.any_eq_true]

/-- Euclidean uniqueness used for the injectivity claim. -/
theorem mul_add_inj (L a b : Nat) (i1 i2 : Int) (h1 : 0 ≤ i1)
    (h2 : i1 < (L : Int)) (h3 : 0 ≤ i2) (h4 : i2 < (L : Int))
    (he : ((L * a : Nat) : Int) + i1 = ((L * b : Nat) : Int) + i2) :
    a = b ∧ i1 = i2 := by
  rcases Nat.lt_trichotomy a b with h | h | h
  · exfalso
    have h5 := Nat.mul_le_mul_left L (Nat.succ_le_of_lt h)
    rw [Nat.mul_succ] at h5
    omega
  · subst h
    exact ⟨rfl, by omega⟩
  · exfalso
    have h5 := Nat.mul_le_mul_left L (Nat.succ_le_of_lt h)
    rw [Nat.mul_succ] at h5
    omega

example : rawIndices [("a", 10), ("b", 10), ("c", 7)] 0 =
    [("a", 0, 10), ("b", 10, 20), ("c", 20, 27)] := by decide

example : truncateLast 4 (rawIndices [("a", 10), ("b", 10), ("c", 7)] 0) =
    [("a", 0, 10), ("b", 10, 20), ("c", 20, 24)] := by decide

example : truncateLast 4 (rawIndices [("a", 5), ("b", 1)] 0) =
    [("a", 0, 5), ("b", 5, 4)] := by decide

example : sampleView0.shardIndices = [("a", 0, 4), ("b", 4, 8)] := by decide

example : sampleView0.totalSamples = 8 ∧ sampleView0.len = 4 := by decide

example : badView.shardIndices = [("a", 0, 5), ("b", 5, 4)] := by decide

example : badView.totalSamples = 4 := by decide

example : coversB badView.shardIndices 4 = true := by decide

example : sampleView1.getItem (-1) =
    Except.ok (13, sampleView1.setShard "a") := by decide

example : sampleViewW1.passLog [1, 5] =
    Except.ok [("a", true), ("b", true)] := by decide

example :
    (DistributedShardedDataset.init ex3Shards 0 4).map
      (fun d => (d.totalSamples, d.len)) = Except.ok (24, 6) := by decide

/-- C1 (amended): after any successful construction the shard ranges are
sorted by start and pairwise non-overlapping, and their union contains
`[0, total_samples)`; the union equals `[0, total_samples)` exactly when, in
addition, the dropped remainder (raw sample sum mod `world_size`) does not
exceed the last-in-order shard's length — both directions of this
equivalence are proved.  (The claim's unconditional equality fails: see the
counterexample.) -/
theorem claim_C1 {α : Type} {sp : List (String × List α)} {r w : Int}
    {d : DistributedShardedDataset α}
    (hok : DistributedShardedDataset.init sp r w = Except.ok d) :
    List.Chain' (fun p q => p.2.1 ≤ q.2.1) d.shardIndices ∧
    List.Pairwise
      (fun p q => ∀ g : Nat, p.2.1 ≤ g → g < p.2.2 → ¬(q.2.1 ≤ g ∧ g < q.2.2))
      d.shardIndices ∧
    (∀ g : Nat, g < d.totalSamples → coversB d.shardIndices g = true) ∧
    ((∀ g : Nat, (coversB d.shardIndices g = true ↔ g < d.totalSamples)) ↔
      sumLens (lensOf d.shards) % d.worldSize ≤ lastLen (lensOf d.shards)) := by
  have hsi := DistributedShardedDataset.init_shardIndices hok
  have hto := DistributedShardedDataset.init_total_self hok
  have hlne : lensOf d.shards ≠ [] :=
    lensOf_ne_nil _ (DistributedShardedDataset.init_shards_ne_nil hok)
  have hcover : ∀ g : Nat, g < d.totalSamples → coversB d.shardIndices g = true := by
    intro g hgt
    rw [hsi, coversB_iff]
    refine truncRaw_cover d.worldSize (lensOf d.shards) 0 g (Nat.zero_le _) ?_
    rw [Nat.zero_add]
    rw [hto] at hgt
    exact hgt
  refine ⟨?_, ?_, hcover, ?_, ?_⟩
  · rw [hsi]
    exact truncRaw_chain _ _ _
  · rw [hsi]
    refine List.Pairwise.imp ?_ (truncRaw_sep _ _ _)
    intro p q h g hg1 hg2 hc
    obtain ⟨hc1, hc2⟩ := hc
    omega
  · intro heq
    by_contra hrem
    push_neg at hrem
    obtain ⟨p, hp, h1, h2⟩ := truncRaw_cover_total d.worldSize (lensOf d.shards) hrem
    have hcov : coversB d.shardIndices
        (sumLens (lensOf d.shards) - sumLens (lensOf d.shards) % d.worldSize) =
          true := by
      rw [hsi, coversB_iff]
      exact ⟨p, hp, h1, h2⟩
    have hlt := (heq _).mp hcov
    rw [hto] at hlt
    exact absurd hlt (lt_irrefl _)
  · intro hrem g
    constructor
    · intro hcov
      rw [hsi, coversB_iff] at hcov
      obtain ⟨p, hp, h1, h2⟩ := hcov
      have hrem0 : (0 + sumLens (lensOf d.shards)) % d.worldSize ≤
          lastLen (lensOf d.shards) := by
        rw [Nat.zero_add]
        exact hrem
      have hb := truncRaw_bound d.worldSize (lensOf d.shards) 0 hrem0 p hp g h1 h2
      rw [Nat.zero_add] at hb
      rw [hto]
      exact hb
    · exact hcover g

/-- C1 counterexample: two shards of sizes 5 and 1 with `world_size = 4`.
Construction succeeds, `total_samples = 4`, yet global index 4 is still
covered by a range (`[0, 5)`), so the union of the ranges is strictly
larger than `[0, total_samples)`. -/
theorem claim_C1_counterexample :
    DistributedShardedDataset.init badShards 0 4 = Except.ok badView ∧
    badView.totalSamples = 4 ∧
    coversB badView.shardIndices 4 = true ∧
    ¬(∀ g : Nat, coversB badView.shardIndices g = true ↔ g < badView.totalSamples) := by
  refine ⟨by decide, by decide, by decide, ?_⟩
  intro h
  have h4 := (h 4).mp (by decide)
  exact absurd h4 (by decide)

/-- C1 witness: a fully regular configuration satisfying the amended claim's
hypotheses. -/
theorem claim_C1_witness :
    DistributedShardedDataset.init sampleShards 0 2 = Except.ok sampleView0 ∧
    (List.Chain' (fun p q => p.2.1 ≤ q.2.1) sampleView0.shardIndices ∧
    List.Pairwise
      (fun p q => ∀ g : Nat, p.2.1 ≤ g → g < p.2.2 → ¬(q.2.1 ≤ g ∧ g < q.2.2))
      sampleView0.shardIndices ∧
    (∀ g : Nat, g < sampleView0.totalSamples →
      coversB sampleView0.shardIndices g = true) ∧
    ((∀ g : Nat, (coversB sampleView0.shardIndices g = true ↔
        g < sampleView0.totalSamples)) ↔
      sumLens (lensOf sampleView0.shards) % sampleView0.worldSize ≤
        lastLen (lensOf sampleView0.shards))) :=
  ⟨by decide, @claim_C1 Nat sampleShards 0 2 sampleView0 (by decide)⟩

/-- C2: truncation changes only the last-in-order shard's range end; that
end (and `total_samples`) is the raw sum of shard lengths rounded down to a
multiple of `world_size`, earlier ranges are untouched, `total_samples` is
divisible by `world_size`; concretely, shards of sizes 10, 10, 7 with
`world_size = 4` give `total_samples = 24` and per-rank length 6. -/
theorem claim_C2 {α : Type} {sp : List (String × List α)} {r w : Int}
    {d : DistributedShardedDataset α}
    (hok : DistributedShardedDataset.init sp r w = Except.ok d) :
    d.shardIndices.dropLast = (rawIndices (lensOf d.shards) 0).dropLast ∧
    (∃ k s, (rawIndices (lensOf d.shards) 0).getLast? =
        some (k, s, sumLens (lensOf d.shards)) ∧
      d.shardIndices.getLast? =
        some (k, s,
          sumLens (lensOf d.shards) - sumLens (lensOf d.shards) % d.worldSize)) ∧
    d.totalSamples =
      sumLens (lensOf d.shards) - sumLens (lensOf d.shards) % d.worldSize ∧
    d.totalSamples % d.worldSize = 0 ∧
    (DistributedShardedDataset.init ex3Shards 0 4).map
      (fun d' => (d'.totalSamples, d'.len)) = Except.ok (24, 6) := by
  have hsi := DistributedShardedDataset.init_shardIndices hok
  have hto := DistributedShardedDataset.init_total_self hok
  have hlne : lensOf d.shards ≠ [] :=
    lensOf_ne_nil _ (DistributedShardedDataset.init_shards_ne_nil hok)
  refine ⟨?_, ?_, hto, ?_, by decide⟩
  · rw [hsi]
    exact truncRaw_dropLast _ _ _
  · obtain ⟨k, n, hl1, hl2⟩ := raw_getLast (lensOf d.shards) 0 hlne
    obtain ⟨k', n', hl1', hl2'⟩ := truncRaw_getLast d.worldSize (lensOf d.shards) 0 hlne
    rw [hl1] at hl1'
    injection hl1' with heq
    obtain ⟨rfl, rfl⟩ := Prod.mk.injEq .. ▸ heq
    simp only [Nat.zero_add] at hl2 hl2'
    refine ⟨k, sumLens (lensOf d.shards) - n, hl2, ?_⟩
    rw [hsi]
    exact hl2'
  · rw [hto]
    exact total_mod _ _

/-- C2 witness: the theorem's hypotheses hold for a regular configuration. -/
theorem claim_C2_witness :
    DistributedShardedDataset.init sampleShards 0 2 = Except.ok sampleView0 ∧
    (sampleView0.shardIndices.dropLast =
      (rawIndices (lensOf sampleView0.shards) 0).dropLast ∧
    (∃ k s, (rawIndices (lensOf sampleView0.shards) 0).getLast? =
        some (k, s, sumLens (lensOf sampleView0.shards)) ∧
      sampleView0.shardIndices.getLast? =
        some (k, s, sumLens (lensOf sampleView0.shards) -
          sumLens (lensOf sampleView0.shards) % sampleView0.worldSize)) ∧
    sampleView0.totalSamples = sumLens (lensOf sampleView0.shards) -
      sumLens (lensOf sampleView0.shards) % sampleView0.worldSize ∧
    sampleView0.totalSamples % sampleView0.worldSize = 0 ∧
    (DistributedShardedDataset.init ex3Shards 0 4).map
      (fun d' => (d'.totalSamples, d'.len)) = Except.ok (24, 6)) :=
  ⟨by decide, @claim_C2 Nat sampleShards 0 2 sampleView0 (by decide)⟩

/-- C4: `rank_index_to_global_index` computes
`per_rank_length * rank + rank_index` with
`per_rank_length = total_samples / world_size`, and its result does not
depend on (nor change) the mutable cache cell — in this embedding the
function returns only an integer and is insensitive to the cache fields. -/
theorem claim_C4 {α : Type} {sp : List (String × List α)} {r w : Int}
    {d : DistributedShardedDataset α}
    (hok : DistributedShardedDataset.init sp r w = Except.ok d) (i : Int) :
    d.rank_index_to_global_index i =
      ((d.totalSamples / d.worldSize : Nat) : Int) * (d.rank : Int) + i ∧
    ∀ ck cs, DistributedShardedDataset.rank_index_to_global_index
        { d with currentShardKey := ck, currentShard := cs } i =
      d.rank_index_to_global_index i := by
  constructor
  · show ((d.len * d.rank : Nat) : Int) + i = _
    push_cast
    rfl
  · intro ck cs
    rfl

/-- C4 witness. -/
theorem claim_C4_witness :
    sampleView1.rank_index_to_global_index 3 =
      ((sampleView1.totalSamples / sampleView1.worldSize : Nat) : Int) *
        (sampleView1.rank : Int) + 3 ∧
    ∀ ck cs, DistributedShardedDataset.rank_index_to_global_index
        { sampleView1 with currentShardKey := ck, currentShard := cs } 3 =
      sampleView1.rank_index_to_global_index 3 :=
  @claim_C4 Nat sampleShards 1 2 sampleView1 (by decide) 3

/-- C5: on a constructed view, `__getitem__` with
`rank_index >= per_rank_length` fails with `IndexError`, an error kind
distinct from the configuration errors (`ValueError`); no clamping
occurs. -/
theorem claim_C5 {α : Type} {sp : List (String × List α)} {r w : Int}
    {d : DistributedShardedDataset α}
    (hok : DistributedShardedDataset.init sp r w = Except.ok d)
    {i : Int} (hge : (d.len : Int) ≤ i) :
    d.getItem i = Except.error PyError.indexError ∧
    PyError.indexError ≠ PyError.valueError := by
  refine ⟨?_, by decide⟩
  rw [DistributedShardedDataset.getItem, if_pos hge]

/-- C5 witness: `rank_index = per_rank_length` (one past the end). -/
theorem claim_C5_witness :
    sampleView0.getItem 4 = Except.error PyError.indexError ∧
    PyError.indexError ≠ PyError.valueError :=
  @claim_C5 Nat sampleShards 0 2 sampleView0 (by decide) 4 (by decide)

/-- C6: construction fails with a configuration error (`ValueError`), and
produces no view, whenever the rank is outside `[0, world_size)` (including
`rank = world_size`), the registry is empty, or `world_size` is
non-positive. -/
theorem claim_C6 {α : Type} (sp : List (String × List α)) (r w : Int)
    (h : ¬(0 ≤ r ∧ r < w) ∨ sp = [] ∨ w ≤ 0) :
    DistributedShardedDataset.init sp r w = Except.error PyError.valueError := by
  have hcase : ¬(0 ≤ r ∧ r < w) ∨ sp = [] := by
    rcases h with h | h | h
    · exact Or.inl h
    · exact Or.inr h
    · exact Or.inl (by omega)
  rcases hcase with h1 | h1
  · simp only [DistributedShardedDataset.init]
    rw [if_pos h1]
  · subst h1
    by_cases h2 : 0 ≤ r ∧ r < w
    · simp only [DistributedShardedDataset.init]
      rw [if_neg (not_not_intro h2)]
      simp
    · simp only [DistributedShardedDataset.init]
      rw [if_pos h2]

/-- C6 witness: `rank = world_size` (equal, not less) is rejected. -/
theorem claim_C6_witness :
    DistributedShardedDataset.init sampleShards 2 2 =
      Except.error PyError.valueError :=
  claim_C6 sampleShards 2 2 (Or.inl (by decide))

/-- C9: on a validly constructed view (distinct shard keys), every valid
rank-local index resolves to some `(shard_key, offset)`: the scan always
finds a containing range, so the `AssertionError` branch at the end of
`rank_index_to_shard_index` is unreachable. -/
theorem claim_C9 {α : Type} {sp : List (String × List α)} {r w : Int}
    {d : DistributedShardedDataset α} (hnd : (sp.map Prod.fst).Nodup)
    (hok : DistributedShardedDataset.init sp r w = Except.ok d)
    {i : Int} (hi0 : 0 ≤ i) (hilt : i < (d.len : Int)) :
    (∃ p, d.rank_index_to_shard_index i = Except.ok p) ∧
    ∀ err, d.rank_index_to_shard_index i ≠ Except.error err := by
  have hG := DistributedShardedDataset.init_good hnd hok
  obtain ⟨k, s, e, hf⟩ := DistributedShardedDataset.find_of_valid hG hi0 hilt
  have hres := DistributedShardedDataset.shard_index_of_find d hf
  refine ⟨⟨_, hres⟩, ?_⟩
  intro err hc
  rw [hres] at hc
  exact Except.noConfusion hc

/-- C9 witness. -/
theorem claim_C9_witness :
    (∃ p, sampleView0.rank_index_to_shard_index 2 = Except.ok p) ∧
    ∀ err, sampleView0.rank_index_to_shard_index 2 ≠ Except.error err :=
  @claim_C9 Nat sampleShards 0 2 sampleView0 (by decide) (by decide) 2
    (by decide) (by decide)

namespace ResumableSequentialSampler

/-- Closed form of the `__iter__` loop: counting up from `i` to
`data_length` yields the image of `List.range`. -/
theorem iterFrom_formula :
    ∀ (n : Nat) (i L : Int), (L - i).toNat = n →
      iterFrom i L = (List.range n).map (fun (j : Nat) => i + (j : Int))
  | 0, i, L, h => by
    rw [iterFrom, dif_neg (by omega)]
    simp
  | n + 1, i, L, h => by
    rw [iterFrom, dif_pos (by omega), iterFrom_formula n (i + 1) L (by omega),
      List.range_succ_eq_map, List.map_cons, List.map_map]
    congr 1
    · simp
    · refine List.map_congr_left ?_
      intro j hj
      show (i + 1) + (j : Int) = i + ((j + 1 : Nat) : Int)
      push_cast
      ring

/-- Dropping `kk` leading values of the loop's output resumes it `kk`
positions later. -/
theorem iterFrom_drop :
    ∀ (kk : Nat) (i L : Int), (iterFrom i L).drop kk = iterFrom (i + kk) L
  | 0, i, L => by simp
  | kk + 1, i, L => by
    by_cases hlt : i < L
    · rw [iterFrom, dif_pos hlt]
      show (iterFrom (i + 1) L).drop kk = _
      rw [iterFrom_drop kk (i + 1) L]
      congr 1
      push_cast
      ring
    · rw [iterFrom, dif_neg hlt]
      have hnil : iterFrom (i + (kk + 1 : Nat)) L = [] := by
        rw [iterFrom, dif_neg (by omega)]
      rw [hnil]
      rfl

theorem iterFrom_mem :
    ∀ (n : Nat) (i L : Int), (L - i).toNat = n →
      ∀ x ∈ iterFrom i L, i ≤ x ∧ x < L
  | 0, i, L, h => by
    rw [iterFrom, dif_neg (by omega)]
    intro x hx
    simp at hx
  | n + 1, i, L, h => by
    rw [iterFrom, dif_pos (by omega)]
    intro x hx
    rcases List.mem_cons.mp hx with hx | hx
    · subst hx
      omega
    · have := iterFrom_mem n (i + 1) L (by omega) x hx
      omega

theorem iterFrom_chain :
    ∀ (n : Nat) (i L : Int), (L - i).toNat = n →
      List.Chain' (fun a b => a < b) (iterFrom i L)
  | 0, i, L, h => by
    rw [iterFrom, dif_neg (by omega)]
    simp
  | n + 1, i, L, h => by
    rw [iterFrom, dif_pos (by omega)]
    refine List.Chain'.cons' (iterFrom_chain n (i + 1) L (by omega)) ?_
    intro y hy
    have hmem := List.mem_of_mem_head? hy
    have := iterFrom_mem n (i + 1) L (by omega) y hmem
    omega

end ResumableSequentialSampler

/-- C7: a `ResumableSequentialSampler` over a source of `length` samples
with `start_index = v` (for `0 ≤ v ≤ length`) yields exactly the strictly
ascending sequence `v, v+1, ..., length-1` — precisely the suffix obtained
by dropping the first `v` outputs of a sampler started at 0 — and its
`__len__` is `length - start_index`. -/
theorem claim_C7 (L : Nat) (v : Int) (h0 : 0 ≤ v) (hL : v ≤ (L : Int)) :
    (ResumableSequentialSampler.init L v).toList =
      (List.range ((L : Int) - v).toNat).map (fun (j : Nat) => v + (j : Int)) ∧
    (ResumableSequentialSampler.init L v).toList =
      ((ResumableSequentialSampler.init L 0).toList).drop v.toNat ∧
    (ResumableSequentialSampler.init L v).samplerLen = (L : Int) - v ∧
    List.Chain' (fun a b => a < b) (ResumableSequentialSampler.init L v).toList := by
  refine ⟨?_, ?_, rfl, ?_⟩
  · exact ResumableSequentialSampler.iterFrom_formula _ v L rfl
  · show ResumableSequentialSampler.iterFrom v L =
      (ResumableSequentialSampler.iterFrom 0 L).drop v.toNat
    rw [ResumableSequentialSampler.iterFrom_drop v.toNat 0 L]
    congr 1
    omega
  · exact ResumableSequentialSampler.iterFrom_chain _ v L rfl

/-- C7 witness: `length = 5`, resumed at `v = 2`. -/
theorem claim_C7_witness :
    (ResumableSequentialSampler.init 5 2).toList =
      (List.range ((5 : Int) - 2).toNat).map (fun (j : Nat) => 2 + (j : Int)) ∧
    (ResumableSequentialSampler.init 5 2).toList =
      ((ResumableSequentialSampler.init 5 0).toList).drop (2 : Int).toNat ∧
    (ResumableSequentialSampler.init 5 2).samplerLen = (5 : Int) - 2 ∧
    List.Chain' (fun a b => a < b) (ResumableSequentialSampler.init 5 2).toList :=
  claim_C7 5 2 (by decide) (by decide)

/-- C3: the map `(rank, rank_index) ↦ per_rank_length * rank + rank_index`
is injective over valid ranks and rank-local indices (two views over the
same registry and world size), and `rank_index_to_shard_index` returns a
`(shard_key, offset)` whose range start plus offset recovers the global
index. -/
theorem claim_C3 {α : Type} {sp : List (String × List α)} {r1 r2 w : Int}
    {d1 d2 : DistributedShardedDataset α} (hnd : (sp.map Prod.fst).Nodup)
    (h1 : DistributedShardedDataset.init sp r1 w = Except.ok d1)
    (h2 : DistributedShardedDataset.init sp r2 w = Except.ok d2)
    {i1 i2 : Int} (hi1 : 0 ≤ i1) (hl1 : i1 < (d1.len : Int))
    (hi2 : 0 ≤ i2) (hl2 : i2 < (d2.len : Int))
    (heq : d1.rank_index_to_global_index i1 = d2.rank_index_to_global_index i2) :
    (d1.rank = d2.rank ∧ i1 = i2) ∧
    ∃ k off s e, d1.rank_index_to_shard_index i1 = Except.ok (k, off) ∧
      d1.shardIndices.lookup k = some (s, e) ∧
      (s : Int) + off = d1.rank_index_to_global_index i1 := by
  have hL := DistributedShardedDataset.init_len_eq h1 h2
  constructor
  · simp only [DistributedShardedDataset.rank_index_to_global_index] at heq
    rw [hL] at heq hl1
    exact mul_add_inj d2.len d1.rank d2.rank i1 i2 hi1 hl1 hi2 hl2 heq
  · have hG := DistributedShardedDataset.init_good hnd h1
    obtain ⟨k, s, e, hf⟩ := DistributedShardedDataset.find_of_valid hG hi1 hl1
    refine ⟨k, _, s, e, DistributedShardedDataset.shard_index_of_find d1 hf, ?_, ?_⟩
    · exact lookup_of_mem_nodup hG.keysNodup (findEntry_mem _ _ _ hf).1
    · ring

/-- C3 witness. -/
theorem claim_C3_witness :
    (sampleView0.rank = sampleView0.rank ∧ (1 : Int) = 1) ∧
    ∃ k off s e, sampleView0.rank_index_to_shard_index 1 = Except.ok (k, off) ∧
      sampleView0.shardIndices.lookup k = some (s, e) ∧
      (s : Int) + off = sampleView0.rank_index_to_global_index 1 :=
  @claim_C3 Nat sampleShards 0 0 2 sampleView0 sampleView0 (by decide)
    (by decide) (by decide) 1 1 (by decide) (by decide) (by decide) (by decide) rfl

/-- C10: on a view with `rank ≥ 1`, a negative `rank_index` in
`[-(per_rank_length * rank), 0)` is not rejected by the upper-bound-only
check in `__getitem__`: the call succeeds and returns the sample at global
index `per_rank_length * rank + rank_index`, which lies strictly below this
rank's slice (inside a lower rank's slice). -/
theorem claim_C10 {α : Type} {sp : List (String × List α)} {r w : Int}
    {d : DistributedShardedDataset α} (hnd : (sp.map Prod.fst).Nodup)
    (hok : DistributedShardedDataset.init sp r w = Except.ok d)
    (hrk : 1 ≤ d.rank) {i : Int}
    (hlo : -(((d.len * d.rank : Nat)) : Int) ≤ i) (hhi : i < 0) :
    ∃ x d', d.getItem i = Except.ok (x, d') ∧
      0 ≤ d.rank_index_to_global_index i ∧
      d.rank_index_to_global_index i < ((d.len * d.rank : Nat) : Int) ∧
      d.sampleAtGlobal (d.rank_index_to_global_index i) = some x := by
  have hG := DistributedShardedDataset.init_good hnd hok
  have hg : d.rank_index_to_global_index i = ((d.len * d.rank : Nat) : Int) + i := rfl
  have hg0 : 0 ≤ d.rank_index_to_global_index i := by rw [hg]; omega
  have hglt : d.rank_index_to_global_index i < ((d.len * d.rank : Nat) : Int) := by
    rw [hg]
    omega
  have hmul : d.len * d.rank ≤ d.totalSamples := by
    have h5 := Nat.mul_le_mul_left d.len (le_of_lt hG.rankLt)
    rw [hG.lenMul] at h5
    exact h5
  have hlt_total : d.rank_index_to_global_index i < (d.totalSamples : Int) := by
    omega
  obtain ⟨p, hp⟩ := Option.isSome_iff_exists.mp (hG.cover _ hg0 hlt_total)
  obtain ⟨k, s, e⟩ := p
  obtain ⟨x, hx, hgi⟩ :=
    DistributedShardedDataset.getItem_ok hG (by omega : i < (d.len : Int)) hp
  refine ⟨x, d.setShard k, hgi, hg0, hglt, ?_⟩
  simp only [DistributedShardedDataset.sampleAtGlobal]
  rw [hp]
  exact hx

/-- C10 witness: rank 1 of 2, `rank_index = -1` returns the last sample of
rank 0's slice. -/
theorem claim_C10_witness :
    ∃ x d', sampleView1.getItem (-1) = Except.ok (x, d') ∧
      0 ≤ sampleView1.rank_index_to_global_index (-1) ∧
      sampleView1.rank_index_to_global_index (-1) <
        ((sampleView1.len * sampleView1.rank : Nat) : Int) ∧
      sampleView1.sampleAtGlobal (sampleView1.rank_index_to_global_index (-1)) =
        some x :=
  @claim_C10 Nat sampleShards 1 2 sampleView1 (by decide) (by decide) (by decide)
    (-1) (by decide) (by decide)

theorem key_unique {l : List (String × Nat × Nat)}
    (hnd : (l.map Prod.fst).Nodup) {k : String} {s1 e1 s2 e2 : Nat}
    (h1 : (k, s1, e1) ∈ l) (h2 : (k, s2, e2) ∈ l) : s1 = s2 ∧ e1 = e2 := by
  have hl1 := lookup_of_mem_nodup hnd h1
  have hl2 := lookup_of_mem_nodup hnd h2
  rw [hl1] at hl2
  injection hl2 with h
  obtain ⟨h3, h4⟩ := Prod.mk.injEq .. ▸ h
  exact ⟨h3, h4⟩

theorem startOf_eq {l : List (String × Nat × Nat)}
    (hnd : (l.map Prod.fst).Nodup) {k : String} {s e : Nat}
    (hmem : (k, s, e) ∈ l) : startOf l k = s := by
  rw [startOf, lookup_of_mem_nodup hnd hmem]
  rfl

namespace DistributedShardedDataset

theorem glob_strict {α : Type} (d : DistributedShardedDataset α) {i j : Int}
    (h : i < j) :
    d.rank_index_to_global_index i < d.rank_index_to_global_index j := by
  simp only [rank_index_to_global_index]
  omega

theorem setShard_glob {α : Type} (d : DistributedShardedDataset α) (k : String)
    (j : Int) : (d.setShard k).rank_index_to_global_index j =
      d.rank_index_to_global_index j := by
  simp only [rank_index_to_global_index, setShard_len, setShard_rank]

/-- Invariant induction for a pass of strictly increasing accesses: the pass
succeeds, resolved range starts are non-decreasing, no shard is constructed
twice, and — relative to the range `cur` resolved for an earlier global
index — every visited range starts at or after `cur`'s start, and every
range whose shard this pass constructs starts at or after `cur`'s end. -/
theorem passLog_spec {α : Type} :
    ∀ (idxs : List Int) (d : DistributedShardedDataset α)
      (cur : Option (String × Nat × Nat)),
      GoodView d →
      List.Pairwise (fun a b => a < b) idxs →
      (∀ i ∈ idxs, 0 ≤ i ∧ i < (d.len : Int)) →
      (∀ c, cur = some c → d.currentShardKey = some c.1 ∧
        ∃ gp, findEntry gp d.shardIndices = some c ∧
          ∀ i ∈ idxs, gp < d.rank_index_to_global_index i) →
      ∃ log, d.passLog idxs = Except.ok log ∧
        List.Chain' (fun a b =>
          startOf d.shardIndices a.1 ≤ startOf d.shardIndices b.1) log ∧
        ((log.filter (fun q => q.2)).map (fun q => q.1)).Nodup ∧
        (∀ q ∈ log, ∀ c, cur = some c →
          ∃ s' e', (q.1, s', e') ∈ d.shardIndices ∧ s' < e' ∧
            c.2.1 ≤ s' ∧ (q.2 = true → c.2.2 ≤ s'))
  | [], d, cur, hG, hch, hval, hcs =>
    ⟨[], rfl, by simp, by simp, by simp⟩
  | i :: is, d, cur, hG, hch, hval, hcs => by
    obtain ⟨hi0, hilt⟩ := hval i (List.mem_cons_self _ _)
    obtain ⟨k, s, e, hf⟩ := find_of_valid hG hi0 hilt
    obtain ⟨x, hx, hgi⟩ := getItem_ok hG hilt hf
    have hG' := good_setShard k hG
    obtain ⟨hpw_head, hpw_tail⟩ := List.pairwise_cons.mp hch
    have hval' : ∀ j ∈ is, 0 ≤ j ∧ j < ((d.setShard k).len : Int) := by
      intro j hj
      rw [setShard_len]
      exact hval j (List.mem_cons_of_mem _ hj)
    have hfm := findEntry_mem _ _ _ hf
    have hse : s < e := by
      have h1 : (s : Int) ≤ d.rank_index_to_global_index i := hfm.2.1
      have h2 : d.rank_index_to_global_index i < (e : Int) := hfm.2.2
      omega
    have hcs' : ∀ c, some (k, s, e) = some c →
        (d.setShard k).currentShardKey = some c.1 ∧
        ∃ gp, findEntry gp (d.setShard k).shardIndices = some c ∧
          ∀ j ∈ is, gp < (d.setShard k).rank_index_to_global_index j := by
      intro c hc
      injection hc with hc
      subst hc
      refine ⟨setShard_key d k, d.rank_index_to_global_index i, ?_, ?_⟩
      · rw [setShard_shardIndices]
        exact hf
      · intro j hj
        rw [setShard_glob]
        exact glob_strict d (hpw_head j hj)
    obtain ⟨log', hpl', hchain', hnd', hP4'⟩ :=
      passLog_spec is (d.setShard k) (some (k, s, e)) hG' hpw_tail hval' hcs'
    have hpass : d.passLog (i :: is) =
        Except.ok ((k, decide (¬ d.currentShardKey = some k)) :: log') := by
      simp only [passLog]
      rw [shard_index_of_find d hf, hgi]
      show (match (d.setShard k).passLog is with
        | Except.error e => Except.error e
        | Except.ok log =>
          Except.ok ((k, decide (¬ d.currentShardKey = some k)) :: log)) = _
      rw [hpl']
    have hP4ce : ∀ q ∈ log', ∃ s' e', (q.1, s', e') ∈ d.shardIndices ∧ s' < e' ∧
        s ≤ s' ∧ (q.2 = true → e ≤ s') := by
      intro q hq
      have hthis := hP4' q hq (k, s, e) rfl
      simp only [setShard_shardIndices] at hthis
      exact hthis
    have hchain2 : List.Chain' (fun a b =>
        startOf d.shardIndices a.1 ≤ startOf d.shardIndices b.1)
        ((k, decide (¬ d.currentShardKey = some k)) :: log') := by
      simp only [setShard_shardIndices] at hchain'
      refine List.Chain'.cons' hchain' ?_
      intro y hy
      obtain ⟨s', e', hm', _, hss', _⟩ := hP4ce y (List.mem_of_mem_head? hy)
      show startOf d.shardIndices k ≤ startOf d.shardIndices y.1
      rw [startOf_eq hG.keysNodup hfm.1, startOf_eq hG.keysNodup hm']
      exact hss'
    have hknotin : ¬ k ∈ ((log'.filter (fun q => q.2)).map (fun q => q.1)) := by
      intro hk
      obtain ⟨q, hq, hq1⟩ := List.mem_map.mp hk
      obtain ⟨hql, hqt⟩ := List.mem_filter.mp hq
      obtain ⟨s', e', hm', hlt', hss', hee'⟩ := hP4ce q hql
      rw [hq1] at hm'
      obtain ⟨hs12, he12⟩ := key_unique hG.keysNodup hm' hfm.1
      have hee := hee' hqt
      omega
    by_cases hcache : d.currentShardKey = some k
    · have hbb : decide (¬ d.currentShardKey = some k) = false := by
        simp [hcache]
      rw [hbb] at hpass hchain2
      refine ⟨_, hpass, hchain2, ?_, ?_⟩
      · simpa using hnd'
      · intro q hq c hc
        obtain ⟨ck, cs0, ce0⟩ := c
        obtain ⟨hck0, gp, hgpf, hgplt⟩ := hcs _ hc
        have hck : ck = k := by
          rw [hcache] at hck0
          injection hck0 with h5
          exact h5.symm
        subst hck
        have hcm := findEntry_mem _ _ _ hgpf
        obtain ⟨hcs0, hce0⟩ := key_unique hG.keysNodup hcm.1 hfm.1
        rcases List.mem_cons.mp hq with hq1 | hq1
        · subst hq1
          refine ⟨s, e, hfm.1, hse, ?_, ?_⟩
          · show cs0 ≤ s
            omega
          · intro h5
            simp at h5
        · obtain ⟨s', e', hm', hlt', hss', hee'⟩ := hP4ce q hq1
          refine ⟨s', e', hm', hlt', ?_, ?_⟩
          · show cs0 ≤ s'
            omega
          · intro hqt
            show ce0 ≤ s'
            have h6 := hee' hqt
            omega
    · have hbb : decide (¬ d.currentShardKey = some k) = true := by
        rw [decide_eq_true_eq]
        exact hcache
      rw [hbb] at hpass hchain2
      refine ⟨_, hpass, hchain2, ?_, ?_⟩
      · have hfc : ((k, true) :: log').filter (fun q => q.2) =
            (k, true) :: log'.filter (fun q => q.2) := by
          simp [List.filter_cons]
        rw [hfc, List.map_cons]
        exact List.nodup_cons.mpr ⟨hknotin, hnd'⟩
      · intro q hq c hc
        obtain ⟨ck, cs0, ce0⟩ := c
        obtain ⟨hck0, gp, hgpf, hgplt⟩ := hcs _ hc
        have hne : ck ≠ k := by
          intro h5
          rw [h5] at hck0
          exact hcache hck0
        have hcm := findEntry_mem _ _ _ hgpf
        have hgpi : gp < d.rank_index_to_global_index i :=
          hgplt i (List.mem_cons_self _ _)
        have hc1 : (cs0 : Int) ≤ gp := hcm.2.1
        have hc2 : gp < (ce0 : Int) := hcm.2.2
        by_cases hgc : d.rank_index_to_global_index i < (ce0 : Int)
        · exfalso
          have hstab := findEntry_stable gp (d.rank_index_to_global_index i)
            d.shardIndices hG.sep (ck, cs0, ce0) hgpf
            (by show (cs0 : Int) ≤ _; omega) hgc
          rw [hf] at hstab
          injection hstab with hstab
          exact hne (congrArg Prod.fst hstab).symm
        · have hmove := findEntry_move gp (d.rank_index_to_global_index i)
            d.shardIndices hG.sep (ck, cs0, ce0) (k, s, e) hgpf
            (by show (ce0 : Int) ≤ _; omega) hf
          have hmv : ce0 ≤ s := hmove
          rcases List.mem_cons.mp hq with hq1 | hq1
          · subst hq1
            refine ⟨s, e, hfm.1, hse, ?_, fun _ => hmv⟩
            show cs0 ≤ s
            omega
          · obtain ⟨s', e', hm', hlt', hss', hee'⟩ := hP4ce q hq1
            refine ⟨s', e', hm', hlt', ?_, ?_⟩
            · show cs0 ≤ s'
              omega
            · intro hqt
              show ce0 ≤ s'
              omega

end DistributedShardedDataset

/-- C8: on one view, a pass of `__getitem__` calls at strictly increasing
valid rank-local indices succeeds, visits shards in range order (the
resolved range starts are non-decreasing), and constructs each shard's
content at most once (the log of cache misses holds no repeated key; a
shard already resident in the cache cell is never reconstructed). -/
theorem claim_C8 {α : Type} {sp : List (String × List α)} {r w : Int}
    {d : DistributedShardedDataset α} (hnd : (sp.map Prod.fst).Nodup)
    (hok : DistributedShardedDataset.init sp r w = Except.ok d)
    (idxs : List Int) (hch : List.Chain' (fun a b => a < b) idxs)
    (hval : ∀ i ∈ idxs, 0 ≤ i ∧ i < (d.len : Int)) :
    ∃ log, d.passLog idxs = Except.ok log ∧
      List.Chain' (fun a b =>
        startOf d.shardIndices a.1 ≤ startOf d.shardIndices b.1) log ∧
      ((log.filter (fun q => q.2)).map (fun q => q.1)).Nodup := by
  have hG := DistributedShardedDataset.init_good hnd hok
  have hpw : List.Pairwise (fun a b => a < b) idxs :=
    List.chain'_iff_pairwise.mp hch
  obtain ⟨log, h1, h2, h3, _⟩ :=
    DistributedShardedDataset.passLog_spec idxs d none hG hpw hval
      (fun c hc => Option.noConfusion hc)
  exact ⟨log, h1, h2, h3⟩

/-- C8 witness: a world-size-1 view over two shards, accessed at indices 1
then 5, crossing from the first shard into the second. -/
theorem claim_C8_witness :
    ∃ log, sampleViewW1.passLog [1, 5] = Except.ok log ∧
      List.Chain' (fun a b =>
        startOf sampleViewW1.shardIndices a.1 ≤
          startOf sampleViewW1.shardIndices b.1) log ∧
      ((log.filter (fun q => q.2)).map (fun q => q.1)).Nodup :=
  @claim_C8 Nat sampleShards 0 1 sampleViewW1 (by decide) (by decide) [1, 5]
    (by norm_num [List.chain'_cons, List.chain'_singleton]) (by decide)
